import Mathlib

set_option maxRecDepth 100000

/-!
Verification of the document chunking pipeline of the `genai-research-assistant`
repository (`backend/app/services/pdf_processing.py` and
`backend/app/services/document_processor.py`).

Text is modelled as `List Char`.  Python string primitives that the code uses
(`str.strip`, slicing, `str.rfind`, `re.sub` with run-replacement patterns,
`str.replace`) are given executable Lean counterparts; character classes
(`\w`, `\s`) are modelled over their ASCII fragments, which is exact for every
input considered here.  Python `int` cursor arithmetic stays non-negative in
the code (the `start <= 0` guard fires exactly when `end - chunk_overlap <= 0`),
so `Nat` with an explicit `end <= overlap` test is a faithful translation.

The splitting loop of `_split_text_with_overlap` has no termination argument
in the source (its only progress guard is `if start <= 0: start = end`), so it
is embedded with explicit fuel: `none` means the loop is still running after
the given number of iterations.  `split_text_with_overlap` supplies
`text.length + 1` fuel, enough whenever every iteration advances the cursor.
-/

/-! ## Python string primitives -/

/-- ASCII fragment of Python's `str` whitespace class (`\s`):
space, tab, newline, carriage return, vertical tab, form feed. -/
def pyIsSpace (c : Char) : Bool :=
  c = ' ' || c = '\t' || c = '\n' || c = '\r' || c = '\x0b' || c = '\x0c'

/-- Python `str.strip()`: drop leading and trailing whitespace. -/
def pyStrip (s : List Char) : List Char :=
  ((s.dropWhile pyIsSpace).reverse.dropWhile pyIsSpace).reverse

/-- Python slice `s[a:b]` for non-negative indices: both bounds are clamped
to the string length, and `a > b` yields the empty string. -/
def pySlice (s : List Char) (a b : Nat) : List Char :=
  (s.drop a).take (b - a)

/-- One left-to-right pass of `str.rfind('.', a, b)`: `best` remembers the
last matching index seen so far, `i` is the index of the head of `l` in the
original string. -/
def rfindDotGo (a b : Nat) : List Char → Nat → Option Nat → Option Nat
  | [], _, best => best
  | c :: rest, i, best =>
      rfindDotGo a b rest (i + 1)
        (if a ≤ i ∧ i < b ∧ c = '.' then some i else best)

/-- Python `text.rfind('.', a, b)`: the largest index `p` with
`a ≤ p < min b text.length` and `text[p] = '.'`; `none` plays the role of
Python's `-1`. -/
def rfindDot (text : List Char) (a b : Nat) : Option Nat :=
  rfindDotGo a b text 0 none

/-- Replace every maximal run of characters satisfying `p` by a single
space, as `re.sub(p+, ' ', s)` does.  The `inRun` flag records whether the
previous character was part of a run. -/
def replaceRunsAux (p : Char → Bool) : List Char → Bool → List Char
  | [], _ => []
  | c :: rest, inRun =>
      if p c then
        if inRun then replaceRunsAux p rest true
        else ' ' :: replaceRunsAux p rest true
      else c :: replaceRunsAux p rest false

/-- `re.sub(r'X+', ' ', s)` for a character class `X` given by `p`. -/
def replaceRuns (p : Char → Bool) (s : List Char) : List Char :=
  replaceRunsAux p s false

/-- Fuel-indexed body of Python `str.replace(pat, rep)`: left-to-right,
non-overlapping.  Each step consumes at least one character of `s`, so
`s.length` fuel always suffices. -/
def pyReplaceAux (pat rep : List Char) : Nat → List Char → List Char
  | 0, s => s
  | _ + 1, [] => []
  | fuel + 1, c :: rest =>
      if pat ≠ [] ∧ pat.isPrefixOf (c :: rest) then
        rep ++ pyReplaceAux pat rep fuel ((c :: rest).drop pat.length)
      else c :: pyReplaceAux pat rep fuel rest

/-- Python `s.replace(pat, rep)` for a non-empty pattern. -/
def pyReplace (pat rep s : List Char) : List Char :=
  pyReplaceAux pat rep s.length s

/-! ## `PDFProcessor._clean_text` -/

/-- ASCII fragment of Python's `\w`: letters, digits, underscore. -/
def pyWordChar (c : Char) : Bool :=
  c.isAlpha || c.isDigit || c = '_'

/-- The punctuation allow-list of the artifact-removal regex
`[^\w\s\.,!?;:()\-\'"]`. -/
def allowedPunct (c : Char) : Bool :=
  c = '.' || c = ',' || c = '!' || c = '?' || c = ';' || c = ':' ||
  c = '(' || c = ')' || c = '-' || c = '\'' || c = '"'

/-- A character removed by the artifact regex: outside `\w`, `\s` and the
punctuation allow-list. -/
def badChar (c : Char) : Bool :=
  !(pyWordChar c || pyIsSpace c || allowedPunct c)

/-- In the source, the line `text.replace(''', "'").replace(''', "'")`
lexes as ONE call: the triple-quoted string literal `'''…'''` swallows the
middle of the line, so the pattern replaced is the 15-character string
`, "'").replace(`. -/
def quotePat : List Char :=
  [',', ' ', '"', '\'', '"', ')', '.', 'r', 'e', 'p', 'l', 'a', 'c', 'e', '(']

/-- `PDFProcessor._clean_text`: collapse whitespace runs, replace runs of
disallowed characters by a space, apply the (no-op) straight-quote
`replace('"', '"')` twice and the `quotePat` replace, then strip. -/
def clean_text (t : List Char) : List Char :=
  pyStrip
    (pyReplace quotePat ['\'']
      (pyReplace ['"'] ['"'] (pyReplace ['"'] ['"']
        (replaceRuns badChar (replaceRuns pyIsSpace t)))))

/-! ## `PDFProcessor.extract_text_from_pdf` -/

/-- Body of the page loop of `extract_text_from_pdf`: `n` is the 1-indexed
number of the current page (Python `enumerate(pdf_reader.pages, 1)`); a page
whose cleaned text is empty after stripping is skipped without emitting a
pair. -/
def extractAux : List (List Char) → Nat → List (List Char × Nat)
  | [], _ => []
  | raw :: rest, n =>
      if (pyStrip (clean_text raw)).isEmpty then extractAux rest (n + 1)
      else (clean_text raw, n) :: extractAux rest (n + 1)

/-- `PDFProcessor.extract_text_from_pdf`, given the per-page raw texts that
the external PDF library (PyPDF2) returns, in page order. -/
def extract_text_from_pdf (raws : List (List Char)) : List (List Char × Nat) :=
  extractAux raws 1

/-! ## `PDFProcessor._split_text_with_overlap` -/

/-- The `end` computed by one iteration of the splitting loop:
`end = start + chunk_size`; if that lies strictly inside the text, look for
the last `'.'` in `[max(end - 200, start), end)` and snap to just after it
when it lies strictly past `start`. -/
def chunkEnd (cs : Nat) (text : List Char) (s : Nat) : Nat :=
  if s + cs < text.length then
    match rfindDot text (max (s + cs - 200) s) (s + cs) with
    | some p => if s < p then p + 1 else s + cs
    | none => s + cs
  else s + cs

/-- The cursor update `start = end - chunk_overlap; if start <= 0: start = end`
(in `Nat`: `end - overlap <= 0` is exactly `end <= overlap`). -/
def nextStart (co e : Nat) : Nat :=
  if e ≤ co then e else e - co

/-- The `while start < len(text)` loop of `_split_text_with_overlap`, with
explicit fuel; `none` means the fuel ran out before the loop finished.  The
stripped slice is appended only when non-empty (`if chunk:`). -/
def splitLoop (cs co : Nat) (text : List Char) :
    Nat → Nat → List (List Char) → Option (List (List Char))
  | 0, _, _ => none
  | fuel + 1, s, acc =>
      if s < text.length then
        splitLoop cs co text fuel (nextStart co (chunkEnd cs text s))
          (if (pyStrip (pySlice text s (chunkEnd cs text s))).isEmpty then acc
           else acc ++ [pyStrip (pySlice text s (chunkEnd cs text s))])
      else some acc

/-- `PDFProcessor._split_text_with_overlap` with `text.length + 1` fuel:
enough iterations whenever each one advances the cursor by at least one. -/
def split_text_with_overlap (cs co : Nat) (text : List Char) :
    Option (List (List Char)) :=
  splitLoop cs co text (text.length + 1) 0 []

/-! ## `PDFProcessor.chunk_text` -/

/-- The chunk record produced by `chunk_text` (`DocumentChunk` dataclass):
`char_count` is `len(text)` at creation time. -/
structure DocumentChunk where
  text : List Char
  chunk_index : Nat
  page_number : Nat
  char_count : Nat
deriving DecidableEq

/-- Build the `DocumentChunk` that `chunk_text` appends for one piece of
text. -/
def chunkFromText (t : List Char) (idx page : Nat) : DocumentChunk :=
  ⟨t, idx, page, t.length⟩

/-- The inner `for chunk_text in page_chunks` loop: one `DocumentChunk` per
split piece, consuming one index each. -/
def emitChunks : List (List Char) → Nat → Nat → List DocumentChunk
  | [], _, _ => []
  | t :: ts, idx, page => chunkFromText t idx page :: emitChunks ts (idx + 1) page

/-- The page loop of `chunk_text`, threading the running `chunk_index`.
A page no longer than `chunk_size` becomes exactly one verbatim chunk; a
longer page goes through `_split_text_with_overlap` (whose possible
non-termination propagates as `none`). -/
def chunkTextAux (cs co : Nat) : List (List Char × Nat) → Nat → Option (List DocumentChunk)
  | [], _ => some []
  | (t, pn) :: rest, idx =>
      if t.length ≤ cs then
        (chunkTextAux cs co rest (idx + 1)).map (fun l => chunkFromText t idx pn :: l)
      else
        (split_text_with_overlap cs co t).bind fun texts =>
          (chunkTextAux cs co rest (idx + texts.length)).map
            (fun l => emitChunks texts idx pn ++ l)

/-- `PDFProcessor.chunk_text`: the global `chunk_index` counter starts at 0. -/
def chunk_text (cs co : Nat) (pages : List (List Char × Nat)) :
    Option (List DocumentChunk) :=
  chunkTextAux cs co pages 0

/-! ## `process_uploaded_document` (document_processor.py) -/

/-- Document lifecycle states used by `process_uploaded_document`. -/
inductive DocStatus
  | uploaded
  | processing
  | completed
  | failed
deriving DecidableEq

/-- The committed database state relevant to one document: its status row
and the chunk rows persisted for it. -/
structure DocDB where
  status : DocStatus
  chunks : List DocumentChunk
deriving DecidableEq

/-- `process_uploaded_document`, with the extraction/chunking call abstracted
as `outcome`: `Except.error ()` stands for any exception raised before the
final commit (missing file, PDF error, chunking failure), `Except.ok cs`
for `process_pdf_file` returning `cs`.  The guard on a non-`uploaded` status
returns without touching the database (`True` only for `completed`).  On the
`uploaded` path the status is first committed as `processing`; on success the
pending chunk rows and the `completed` status are committed together; on any
exception `db.rollback()` discards the pending chunk rows and only the
`failed` status is committed. -/
def process_uploaded_document (db : DocDB) (outcome : Except Unit (List DocumentChunk)) :
    DocDB × Bool :=
  if db.status ≠ DocStatus.uploaded then
    (db, db.status = DocStatus.completed)
  else
    match outcome with
    | .error _ => ({ db with status := .failed }, false)
    | .ok chunks =>
        if chunks.isEmpty then ({ db with status := .failed }, false)
        else ({ status := .completed, chunks := db.chunks ++ chunks }, true)

/-! ## Concrete texts used in the claims -/

/-- `n` copies of the letter `a`. -/
def allA (n : Nat) : List Char := List.replicate n 'a'

/-- A 400-character page with a single period at index 250.  With
`chunk_size = 300`, `chunk_overlap = 200` the splitting loop reaches
cursor 51 and then recomputes `end = 251`, `start = 51` forever. -/
def advText : List Char := allA 250 ++ ['.'] ++ allA 149

/-- A 2500-character page with no period (example scenario 2 of the spec). -/
def t2500 : List Char := allA 2500

/-- A 1200-character page whose only period sits at index 850 (example
scenario 3 of the spec). -/
def text1200 : List Char := allA 850 ++ ['.'] ++ allA 349

/-- A 2500-character page with no period and a single space at index 999,
so the first hard-cut window `[0,1000)` ends in whitespace. -/
def spText : List Char := allA 999 ++ [' '] ++ allA 1500

/-! ## Basic facts about the primitives -/

theorem allA_length (n : Nat) : (allA n).length = n := by
  simp [allA]

theorem t2500_length : t2500.length = 2500 := by
  simp [t2500, allA]

theorem text1200_length : text1200.length = 1200 := by
  simp [text1200, allA]

theorem spText_length : spText.length = 2500 := by
  simp [spText, allA]

theorem advText_length : advText.length = 400 := by
  simp [advText, allA]

theorem rfindDotGo_append (a b : Nat) :
    ∀ (l₁ l₂ : List Char) (i : Nat) (best : Option Nat),
      rfindDotGo a b (l₁ ++ l₂) i best =
        rfindDotGo a b l₂ (i + l₁.length) (rfindDotGo a b l₁ i best) := by
  intro l₁
  induction l₁ with
  | nil => intro l₂ i best; simp [rfindDotGo]
  | cons c rest ih =>
      intro l₂ i best
      show rfindDotGo a b (rest ++ l₂) (i + 1) _ = _
      rw [ih]
      have : i + 1 + rest.length = i + (rest.length + 1) := by omega
      rw [this]
      rfl

theorem rfindDotGo_no_dot (a b : Nat) :
    ∀ (l : List Char) (i : Nat) (best : Option Nat),
      (∀ c ∈ l, c ≠ '.') → rfindDotGo a b l i best = best := by
  intro l
  induction l with
  | nil => intro i best _; rfl
  | cons c rest ih =>
      intro i best h
      show rfindDotGo a b rest (i + 1) _ = best
      have hc : c ≠ '.' := h c (List.mem_cons_self c rest)
      rw [if_neg (by simp [hc]), ih _ _ (fun d hd => h d (List.mem_cons_of_mem c hd))]

theorem no_dot_allA (n : Nat) : ∀ c ∈ allA n, c ≠ '.' := by
  intro c hc
  have : c = 'a' := List.eq_of_mem_replicate hc
  simp [this]

theorem rfindDotGo_allA (a b n i : Nat) (best : Option Nat) :
    rfindDotGo a b (allA n) i best = best :=
  rfindDotGo_no_dot a b (allA n) i best (no_dot_allA n)

theorem rfindDotGo_dot (a b i : Nat) (best : Option Nat) :
    rfindDotGo a b ['.'] i best = if a ≤ i ∧ i < b then some i else best := by
  show rfindDotGo a b [] (i + 1) _ = _
  simp [rfindDotGo]

theorem rfindDot_no_dot (t : List Char) (a b : Nat) (h : ∀ c ∈ t, c ≠ '.') :
    rfindDot t a b = none :=
  rfindDotGo_no_dot a b t 0 none h

theorem rfindDot_allA (n a b : Nat) : rfindDot (allA n) a b = none :=
  rfindDot_no_dot _ a b (no_dot_allA n)

theorem no_dot_spText : ∀ c ∈ spText, c ≠ '.' := by
  intro c hc
  simp only [spText, List.mem_append] at hc
  rcases hc with (hc | hc) | hc
  · simp [List.eq_of_mem_replicate (hc : c ∈ allA 999)]
  · simp_all
  · simp [List.eq_of_mem_replicate (hc : c ∈ allA 1500)]

theorem rfindDot_text1200 (a b : Nat) :
    rfindDot text1200 a b = if a ≤ 850 ∧ 850 < b then some 850 else none := by
  show rfindDotGo a b (allA 850 ++ (['.'] ++ allA 349)) 0 none = _
  rw [rfindDotGo_append, rfindDotGo_allA, rfindDotGo_append, rfindDotGo_dot,
    rfindDotGo_allA, allA_length]

theorem rfindDot_advText (a b : Nat) :
    rfindDot advText a b = if a ≤ 250 ∧ 250 < b then some 250 else none := by
  show rfindDotGo a b (allA 250 ++ (['.'] ++ allA 149)) 0 none = _
  rw [rfindDotGo_append, rfindDotGo_allA, rfindDotGo_append, rfindDotGo_dot,
    rfindDotGo_allA, allA_length]

theorem pySlice_allA (n a b : Nat) :
    pySlice (allA n) a b = allA (min (b - a) (n - a)) := by
  simp [pySlice, allA]

theorem pyStrip_nil : pyStrip [] = [] := rfl

theorem dropWhile_head_not (p : Char → Bool) (l : List Char)
    (h : ∀ c, l.head? = some c → p c = false) : l.dropWhile p = l := by
  cases l with
  | nil => rfl
  | cons c rest =>
      rw [List.dropWhile_cons, h c rfl]
      simp

theorem pyStrip_of_edges (l : List Char)
    (h1 : ∀ c, l.head? = some c → pyIsSpace c = false)
    (h2 : ∀ c, l.getLast? = some c → pyIsSpace c = false) : pyStrip l = l := by
  unfold pyStrip
  rw [dropWhile_head_not _ _ h1]
  rw [dropWhile_head_not _ _ (fun c hc => h2 c (by rwa [List.head?_reverse] at hc))]
  exact l.reverse_reverse

theorem head?_allA_append (n : Nat) (h : 0 < n) (l : List Char) :
    (allA n ++ l).head? = some 'a' := by
  cases n with
  | zero => omega
  | succ m => simp [allA, List.replicate_succ]

theorem head?_allA (n : Nat) (h : 0 < n) : (allA n).head? = some 'a' := by
  cases n with
  | zero => omega
  | succ m => simp [allA, List.replicate_succ]

theorem getLast?_allA (n : Nat) (h : 0 < n) : (allA n).getLast? = some 'a' := by
  cases n with
  | zero => omega
  | succ m => simp [allA, List.replicate_succ', List.getLast?_concat]

theorem pyStrip_allA (n : Nat) : pyStrip (allA n) = allA n := by
  cases n with
  | zero => rfl
  | succ m =>
      exact pyStrip_of_edges _
        (fun c hc => by
          rw [head?_allA _ (Nat.succ_pos m)] at hc
          cases hc; decide)
        (fun c hc => by
          rw [getLast?_allA _ (Nat.succ_pos m)] at hc
          cases hc; decide)

theorem dropWhile_allA (n : Nat) : (allA n).dropWhile pyIsSpace = allA n :=
  dropWhile_head_not _ _ (fun c hc => by
    cases n with
    | zero => simp [allA] at hc
    | succ m => rw [head?_allA _ (Nat.succ_pos m)] at hc; cases hc; decide)

theorem allA_reverse (n : Nat) : (allA n).reverse = allA n := by
  simp [allA]

theorem pyStrip_allA_space (n : Nat) (h : 0 < n) :
    pyStrip (allA n ++ [' ']) = allA n := by
  unfold pyStrip
  rw [dropWhile_head_not pyIsSpace (allA n ++ [' ']) (fun c hc => by
    rw [head?_allA_append n h] at hc; cases hc; decide)]
  rw [List.reverse_append, allA_reverse]
  simp [List.dropWhile_cons, show pyIsSpace ' ' = true from rfl,
    dropWhile_allA, allA_reverse]

/-! ## `chunkEnd` and `splitLoop` step lemmas -/

theorem chunkEnd_no_dot (cs : Nat) (t : List Char) (s : Nat)
    (h : ∀ c ∈ t, c ≠ '.') : chunkEnd cs t s = s + cs := by
  unfold chunkEnd
  rw [rfindDot_no_dot t _ _ h]
  simp

theorem chunkEnd_of_ge (cs : Nat) (t : List Char) (s : Nat)
    (h : ¬ s + cs < t.length) : chunkEnd cs t s = s + cs := by
  unfold chunkEnd
  rw [if_neg h]

theorem splitLoop_step (cs co : Nat) (t : List Char) (n s : Nat)
    (acc : List (List Char)) (h : s < t.length) :
    splitLoop cs co t (n + 1) s acc =
      splitLoop cs co t n (nextStart co (chunkEnd cs t s))
        (if (pyStrip (pySlice t s (chunkEnd cs t s))).isEmpty then acc
         else acc ++ [pyStrip (pySlice t s (chunkEnd cs t s))]) := by
  rw [splitLoop, if_pos h]

theorem splitLoop_exit (cs co : Nat) (t : List Char) (n s : Nat)
    (acc : List (List Char)) (h : ¬ s < t.length) :
    splitLoop cs co t (n + 1) s acc = some acc := by
  rw [splitLoop, if_neg h]

theorem allA_isEmpty_false (n : Nat) (h : 0 < n) : (allA n).isEmpty = false := by
  cases n with
  | zero => omega
  | succ m => simp [allA, List.replicate_succ]

theorem emit_nonempty (acc : List (List Char)) (c : List Char)
    (h : c.isEmpty = false) :
    (if c.isEmpty then acc else acc ++ [c]) = acc ++ [c] := by
  rw [h]
  rfl

theorem getLast?_ends_allA (l : List Char) (n : Nat) (h : 0 < n) :
    (l ++ allA n).getLast? = some 'a' := by
  rw [List.getLast?_append, getLast?_allA n h]
  rfl

/-! ## Concrete runs of the splitting loop -/

theorem no_dot_t2500 : ∀ c ∈ t2500, c ≠ '.' := no_dot_allA 2500

theorem splitLoop_t2500 (n : Nat) (acc : List (List Char)) :
    splitLoop 1000 200 t2500 (n + 5) 0 acc =
      some (acc ++ [allA 1000, allA 1000, allA 900, allA 100]) := by
  have hs0 : pySlice t2500 0 1000 = allA 1000 := by
    show pySlice (allA 2500) 0 1000 = allA 1000
    rw [pySlice_allA]
    norm_num
  have hs1 : pySlice t2500 800 1800 = allA 1000 := by
    show pySlice (allA 2500) 800 1800 = allA 1000
    rw [pySlice_allA]
    norm_num
  have hs2 : pySlice t2500 1600 2600 = allA 900 := by
    show pySlice (allA 2500) 1600 2600 = allA 900
    rw [pySlice_allA]
    norm_num
  have hs3 : pySlice t2500 2400 3400 = allA 100 := by
    show pySlice (allA 2500) 2400 3400 = allA 100
    rw [pySlice_allA]
    norm_num
  rw [show n + 5 = n + 4 + 1 by omega,
    splitLoop_step 1000 200 t2500 (n + 4) 0 acc (by rw [t2500_length]; norm_num),
    chunkEnd_no_dot 1000 t2500 0 no_dot_t2500,
    show nextStart 200 (0 + 1000) = 800 by norm_num [nextStart],
    show (0 : Nat) + 1000 = 1000 by norm_num, hs0, pyStrip_allA,
    emit_nonempty _ _ (allA_isEmpty_false 1000 (by norm_num))]
  rw [show n + 4 = n + 3 + 1 by omega,
    splitLoop_step 1000 200 t2500 (n + 3) 800 _ (by rw [t2500_length]; norm_num),
    chunkEnd_no_dot 1000 t2500 800 no_dot_t2500,
    show nextStart 200 (800 + 1000) = 1600 by norm_num [nextStart],
    show (800 : Nat) + 1000 = 1800 by norm_num, hs1, pyStrip_allA,
    emit_nonempty _ _ (allA_isEmpty_false 1000 (by norm_num))]
  rw [show n + 3 = n + 2 + 1 by omega,
    splitLoop_step 1000 200 t2500 (n + 2) 1600 _ (by rw [t2500_length]; norm_num),
    chunkEnd_no_dot 1000 t2500 1600 no_dot_t2500,
    show nextStart 200 (1600 + 1000) = 2400 by norm_num [nextStart],
    show (1600 : Nat) + 1000 = 2600 by norm_num, hs2, pyStrip_allA,
    emit_nonempty _ _ (allA_isEmpty_false 900 (by norm_num))]
  rw [show n + 2 = n + 1 + 1 by omega,
    splitLoop_step 1000 200 t2500 (n + 1) 2400 _ (by rw [t2500_length]; norm_num),
    chunkEnd_no_dot 1000 t2500 2400 no_dot_t2500,
    show nextStart 200 (2400 + 1000) = 3200 by norm_num [nextStart],
    show (2400 : Nat) + 1000 = 3400 by norm_num, hs3, pyStrip_allA,
    emit_nonempty _ _ (allA_isEmpty_false 100 (by norm_num))]
  rw [splitLoop_exit 1000 200 t2500 n 3200 _ (by rw [t2500_length]; norm_num)]
  simp

theorem split_t2500 :
    split_text_with_overlap 1000 200 t2500 =
      some [allA 1000, allA 1000, allA 900, allA 100] := by
  show splitLoop 1000 200 t2500 (t2500.length + 1) 0 [] = _
  rw [t2500_length, show (2500 : Nat) + 1 = 2496 + 5 by norm_num,
    splitLoop_t2500 2496 []]
  simp


theorem spText_slice0 : pySlice spText 0 1000 = allA 999 ++ [' '] := by
  simp [pySlice, spText, allA, List.take_append_eq_append_take,
    List.drop_append_eq_append_drop]

theorem spText_slice1 :
    pySlice spText 800 1800 = allA 199 ++ ([' '] ++ allA 800) := by
  simp [pySlice, spText, allA, List.take_append_eq_append_take,
    List.drop_append_eq_append_drop]

theorem spText_slice2 : pySlice spText 1600 2600 = allA 900 := by
  simp [pySlice, spText, allA, List.take_append_eq_append_take,
    List.drop_append_eq_append_drop]

theorem spText_slice3 : pySlice spText 2400 3400 = allA 100 := by
  simp [pySlice, spText, allA, List.take_append_eq_append_take,
    List.drop_append_eq_append_drop]

theorem spText_chunk1_strip :
    pyStrip (allA 199 ++ ([' '] ++ allA 800)) = allA 199 ++ ([' '] ++ allA 800) := by
  apply pyStrip_of_edges
  · intro c hc
    rw [head?_allA_append 199 (by norm_num)] at hc
    cases hc
    decide
  · intro c hc
    rw [← List.append_assoc, getLast?_ends_allA _ 800 (by norm_num)] at hc
    cases hc
    decide

theorem splitLoop_spText (n : Nat) (acc : List (List Char)) :
    splitLoop 1000 200 spText (n + 5) 0 acc =
      some (acc ++ [allA 999, allA 199 ++ ([' '] ++ allA 800), allA 900, allA 100]) := by
  have hne1 : (allA 199 ++ ([' '] ++ allA 800)).isEmpty = false := by
    cases h : (allA 199 ++ ([' '] ++ allA 800)).isEmpty
    · rfl
    · rw [List.isEmpty_iff] at h
      simp [allA] at h
  rw [show n + 5 = n + 4 + 1 by omega,
    splitLoop_step 1000 200 spText (n + 4) 0 acc (by rw [spText_length]; norm_num),
    chunkEnd_no_dot 1000 spText 0 no_dot_spText,
    show nextStart 200 (0 + 1000) = 800 by norm_num [nextStart],
    show (0 : Nat) + 1000 = 1000 by norm_num, spText_slice0,
    pyStrip_allA_space 999 (by norm_num),
    emit_nonempty _ _ (allA_isEmpty_false 999 (by norm_num))]
  rw [show n + 4 = n + 3 + 1 by omega,
    splitLoop_step 1000 200 spText (n + 3) 800 _ (by rw [spText_length]; norm_num),
    chunkEnd_no_dot 1000 spText 800 no_dot_spText,
    show nextStart 200 (800 + 1000) = 1600 by norm_num [nextStart],
    show (800 : Nat) + 1000 = 1800 by norm_num, spText_slice1,
    spText_chunk1_strip, emit_nonempty _ _ hne1]
  rw [show n + 3 = n + 2 + 1 by omega,
    splitLoop_step 1000 200 spText (n + 2) 1600 _ (by rw [spText_length]; norm_num),
    chunkEnd_no_dot 1000 spText 1600 no_dot_spText,
    show nextStart 200 (1600 + 1000) = 2400 by norm_num [nextStart],
    show (1600 : Nat) + 1000 = 2600 by norm_num, spText_slice2, pyStrip_allA,
    emit_nonempty _ _ (allA_isEmpty_false 900 (by norm_num))]
  rw [show n + 2 = n + 1 + 1 by omega,
    splitLoop_step 1000 200 spText (n + 1) 2400 _ (by rw [spText_length]; norm_num),
    chunkEnd_no_dot 1000 spText 2400 no_dot_spText,
    show nextStart 200 (2400 + 1000) = 3200 by norm_num [nextStart],
    show (2400 : Nat) + 1000 = 3400 by norm_num, spText_slice3, pyStrip_allA,
    emit_nonempty _ _ (allA_isEmpty_false 100 (by norm_num))]
  rw [splitLoop_exit 1000 200 spText n 3200 _ (by rw [spText_length]; norm_num)]
  simp

theorem split_spText :
    split_text_with_overlap 1000 200 spText =
      some [allA 999, allA 199 ++ ([' '] ++ allA 800), allA 900, allA 100] := by
  show splitLoop 1000 200 spText (spText.length + 1) 0 [] = _
  rw [spText_length, show (2500 : Nat) + 1 = 2496 + 5 by norm_num,
    splitLoop_spText 2496 []]
  simp

theorem isEmpty_false_of_ne_nil (l : List Char) (h : l ≠ []) : l.isEmpty = false := by
  cases l with
  | nil => exact absurd rfl h
  | cons c t => rfl

theorem text1200_chunkEnd0 : chunkEnd 1000 text1200 0 = 851 := by
  simp [chunkEnd, text1200_length, rfindDot_text1200]

theorem text1200_slice0 : pySlice text1200 0 851 = allA 850 ++ ['.'] := by
  simp [pySlice, text1200, allA, List.take_append_eq_append_take,
    List.drop_append_eq_append_drop]

theorem text1200_slice1 :
    pySlice text1200 651 1651 = allA 199 ++ (['.'] ++ allA 349) := by
  simp [pySlice, text1200, allA, List.take_append_eq_append_take,
    List.drop_append_eq_append_drop]

theorem text1200_strip0 : pyStrip (allA 850 ++ ['.']) = allA 850 ++ ['.'] := by
  apply pyStrip_of_edges
  · intro c hc
    rw [head?_allA_append 850 (by norm_num)] at hc
    cases hc
    decide
  · intro c hc
    rw [List.getLast?_concat] at hc
    cases hc
    decide

theorem text1200_strip1 :
    pyStrip (allA 199 ++ (['.'] ++ allA 349)) = allA 199 ++ (['.'] ++ allA 349) := by
  apply pyStrip_of_edges
  · intro c hc
    rw [head?_allA_append 199 (by norm_num)] at hc
    cases hc
    decide
  · intro c hc
    rw [← List.append_assoc, getLast?_ends_allA _ 349 (by norm_num)] at hc
    cases hc
    decide

theorem splitLoop_text1200 (n : Nat) (acc : List (List Char)) :
    splitLoop 1000 200 text1200 (n + 3) 0 acc =
      some (acc ++ [allA 850 ++ ['.'], allA 199 ++ (['.'] ++ allA 349)]) := by
  rw [show n + 3 = n + 2 + 1 by omega,
    splitLoop_step 1000 200 text1200 (n + 2) 0 acc (by rw [text1200_length]; norm_num),
    text1200_chunkEnd0,
    show nextStart 200 851 = 651 by norm_num [nextStart],
    text1200_slice0, text1200_strip0,
    emit_nonempty _ _ (isEmpty_false_of_ne_nil _ (by simp [allA]))]
  rw [show n + 2 = n + 1 + 1 by omega,
    splitLoop_step 1000 200 text1200 (n + 1) 651 _ (by rw [text1200_length]; norm_num),
    chunkEnd_of_ge 1000 text1200 651 (by rw [text1200_length]; norm_num),
    show nextStart 200 (651 + 1000) = 1451 by norm_num [nextStart],
    show (651 : Nat) + 1000 = 1651 by norm_num,
    text1200_slice1, text1200_strip1,
    emit_nonempty _ _ (isEmpty_false_of_ne_nil _ (by simp [allA]))]
  rw [splitLoop_exit 1000 200 text1200 n 1451 _ (by rw [text1200_length]; norm_num)]
  simp

theorem split_text1200 :
    split_text_with_overlap 1000 200 text1200 =
      some [allA 850 ++ ['.'], allA 199 ++ (['.'] ++ allA 349)] := by
  show splitLoop 1000 200 text1200 (text1200.length + 1) 0 [] = _
  rw [text1200_length, show (1200 : Nat) + 1 = 1198 + 3 by norm_num,
    splitLoop_text1200 1198 []]
  simp

/-! ## Non-termination of the splitting loop on `advText` -/

theorem advText_chunkEnd0 : chunkEnd 300 advText 0 = 251 := by
  simp [chunkEnd, advText_length, rfindDot_advText]

theorem advText_chunkEnd51 : chunkEnd 300 advText 51 = 251 := by
  simp [chunkEnd, advText_length, rfindDot_advText]

theorem advLoop51 : ∀ (n : Nat) (acc : List (List Char)),
    splitLoop 300 200 advText n 51 acc = none := by
  intro n
  induction n with
  | zero => intro acc; rfl
  | succ k ih =>
      intro acc
      rw [splitLoop_step 300 200 advText k 51 acc (by rw [advText_length]; norm_num),
        advText_chunkEnd51,
        show nextStart 200 251 = 51 by norm_num [nextStart]]
      exact ih _

theorem advLoop0 (n : Nat) (acc : List (List Char)) :
    splitLoop 300 200 advText n 0 acc = none := by
  cases n with
  | zero => rfl
  | succ k =>
      rw [splitLoop_step 300 200 advText k 0 acc (by rw [advText_length]; norm_num),
        advText_chunkEnd0,
        show nextStart 200 251 = 51 by norm_num [nextStart]]
      exact advLoop51 k _

theorem advSplit_none : split_text_with_overlap 300 200 advText = none :=
  advLoop0 (advText.length + 1) []

theorem advChunkText_none : chunk_text 300 200 [(advText, 1)] = none := by
  show chunkTextAux 300 200 [(advText, 1)] 0 = none
  simp [chunkTextAux, advText_length, advSplit_none]

/-! ## Bounds for `rfindDot` and `chunkEnd` -/

theorem rfindDotGo_bounds (a b : Nat) :
    ∀ (l : List Char) (i : Nat) (best : Option Nat),
      (∀ q, best = some q → a ≤ q ∧ q < b) →
      ∀ p, rfindDotGo a b l i best = some p → a ≤ p ∧ p < b := by
  intro l
  induction l with
  | nil => intro i best hb p hp; exact hb p hp
  | cons c rest ih =>
      intro i best hb p hp
      refine ih (i + 1) _ ?_ p hp
      intro q hq
      by_cases h : a ≤ i ∧ i < b ∧ c = '.'
      · rw [if_pos h] at hq
        cases hq
        exact ⟨h.1, h.2.1⟩
      · rw [if_neg h] at hq
        exact hb q hq

theorem rfindDot_bounds (t : List Char) (a b p : Nat)
    (h : rfindDot t a b = some p) : a ≤ p ∧ p < b :=
  rfindDotGo_bounds a b t 0 none (fun q hq => by cases hq) p h

theorem chunkEnd_le (cs : Nat) (t : List Char) (s : Nat) :
    chunkEnd cs t s ≤ s + cs := by
  unfold chunkEnd
  split
  · cases hf : rfindDot t (max (s + cs - 200) s) (s + cs) with
    | none => simp
    | some p =>
        have hb := rfindDot_bounds t _ _ p hf
        simp only
        split
        · omega
        · exact Nat.le_refl _
  · exact Nat.le_refl _

/-! ## Decomposition lemmas: every emitted chunk is a substring -/

theorem dropWhile_decomp (p : Char → Bool) :
    ∀ l : List Char, ∃ pre, l = pre ++ l.dropWhile p := by
  intro l
  induction l with
  | nil => exact ⟨[], rfl⟩
  | cons c rest ih =>
      by_cases h : p c
      · obtain ⟨pre, hpre⟩ := ih
        refine ⟨c :: pre, ?_⟩
        rw [List.dropWhile_cons, if_pos h]
        rw [List.cons_append, ← hpre]
      · refine ⟨[], ?_⟩
        rw [List.dropWhile_cons, if_neg h]
        rfl

theorem pyStrip_decomp (s : List Char) :
    ∃ pre suf, s = pre ++ pyStrip s ++ suf := by
  obtain ⟨pre1, h1⟩ := dropWhile_decomp pyIsSpace s
  obtain ⟨pre2, h2⟩ := dropWhile_decomp pyIsSpace (s.dropWhile pyIsSpace).reverse
  refine ⟨pre1, pre2.reverse, ?_⟩
  unfold pyStrip
  have hd : s.dropWhile pyIsSpace =
      ((s.dropWhile pyIsSpace).reverse.dropWhile pyIsSpace).reverse ++ pre2.reverse := by
    calc s.dropWhile pyIsSpace
        = (s.dropWhile pyIsSpace).reverse.reverse := by rw [List.reverse_reverse]
      _ = (pre2 ++ (s.dropWhile pyIsSpace).reverse.dropWhile pyIsSpace).reverse := by
            rw [← h2]
      _ = ((s.dropWhile pyIsSpace).reverse.dropWhile pyIsSpace).reverse ++ pre2.reverse := by
            rw [List.reverse_append]
  rw [List.append_assoc, ← hd, ← h1]

theorem sub_trans {l m k : List Char} (h1 : ∃ p q, l = p ++ m ++ q)
    (h2 : ∃ p q, m = p ++ k ++ q) : ∃ p q, l = p ++ k ++ q := by
  obtain ⟨p1, q1, e1⟩ := h1
  obtain ⟨p2, q2, e2⟩ := h2
  refine ⟨p1 ++ p2, q2 ++ q1, ?_⟩
  rw [e1, e2]
  simp [List.append_assoc]

theorem sub_length {l m : List Char} (h : ∃ p q, l = p ++ m ++ q) :
    m.length ≤ l.length := by
  obtain ⟨p, q, e⟩ := h
  rw [e]
  simp
  omega

theorem pyStrip_length_le (s : List Char) : (pyStrip s).length ≤ s.length :=
  sub_length (pyStrip_decomp s)

theorem pySlice_decomp (t : List Char) (a b : Nat) :
    ∃ pre suf, t = pre ++ pySlice t a b ++ suf := by
  refine ⟨t.take a, (t.drop a).drop (b - a), ?_⟩
  unfold pySlice
  rw [List.append_assoc, List.take_append_drop, List.take_append_drop]

theorem pySlice_length_le (t : List Char) (a b : Nat) :
    (pySlice t a b).length ≤ b - a := by
  unfold pySlice
  rw [List.length_take]
  omega

theorem chunk_sub (t : List Char) (s e : Nat) :
    ∃ pre suf, t = pre ++ pyStrip (pySlice t s e) ++ suf :=
  sub_trans (pySlice_decomp t s e) (pyStrip_decomp (pySlice t s e))

theorem chunk_length_le (cs : Nat) (t : List Char) (s : Nat) :
    (pyStrip (pySlice t s (chunkEnd cs t s))).length ≤ cs := by
  have h1 := pyStrip_length_le (pySlice t s (chunkEnd cs t s))
  have h2 := pySlice_length_le t s (chunkEnd cs t s)
  have h3 := chunkEnd_le cs t s
  omega

/-! ## Generic soundness of the splitting loop -/

theorem splitLoop_sound (cs co : Nat) (t : List Char) (P : List Char → Prop)
    (hP : ∀ s, P (pyStrip (pySlice t s (chunkEnd cs t s)))) :
    ∀ (fuel s : Nat) (acc res : List (List Char)),
      (∀ c ∈ acc, P c) → splitLoop cs co t fuel s acc = some res →
      ∀ c ∈ res, P c := by
  intro fuel
  induction fuel with
  | zero => intro s acc res _ h; cases h
  | succ k ih =>
      intro s acc res hacc h
      rw [splitLoop] at h
      split at h
      · refine ih _ _ res ?_ h
        split
        · exact hacc
        · intro c hc
          rcases List.mem_append.1 hc with hc | hc
          · exact hacc c hc
          · rw [List.mem_singleton] at hc
            rw [hc]
            exact hP s
      · cases h
        exact hacc

theorem split_sound (cs co : Nat) (t : List Char) (P : List Char → Prop)
    (hP : ∀ s, P (pyStrip (pySlice t s (chunkEnd cs t s))))
    (res : List (List Char)) (h : split_text_with_overlap cs co t = some res) :
    ∀ c ∈ res, P c :=
  splitLoop_sound cs co t P hP _ 0 [] res (by intro c hc; cases hc) h

/-! ## Structure of `emitChunks` and `chunkTextAux` -/

theorem emitChunks_length (texts : List (List Char)) :
    ∀ (idx pn : Nat), (emitChunks texts idx pn).length = texts.length := by
  induction texts with
  | nil => intros; rfl
  | cons t ts ih =>
      intro idx pn
      show (chunkFromText t idx pn :: emitChunks ts (idx + 1) pn).length = _
      simp [ih]

theorem emitChunks_map_idx (texts : List (List Char)) :
    ∀ (idx pn : Nat),
      (emitChunks texts idx pn).map DocumentChunk.chunk_index =
        List.range' idx texts.length := by
  induction texts with
  | nil => intros; rfl
  | cons t ts ih =>
      intro idx pn
      show (chunkFromText t idx pn :: emitChunks ts (idx + 1) pn).map _ = _
      rw [List.map_cons, ih, List.length_cons, List.range'_succ]
      rfl

theorem emitChunks_map_page (texts : List (List Char)) :
    ∀ (idx pn : Nat),
      (emitChunks texts idx pn).map DocumentChunk.page_number =
        List.replicate texts.length pn := by
  induction texts with
  | nil => intros; rfl
  | cons t ts ih =>
      intro idx pn
      show (chunkFromText t idx pn :: emitChunks ts (idx + 1) pn).map _ = _
      rw [List.map_cons, ih, List.length_cons, List.replicate_succ]
      rfl

theorem emitChunks_mem (texts : List (List Char)) :
    ∀ (idx pn : Nat) (ch : DocumentChunk), ch ∈ emitChunks texts idx pn →
      ch.page_number = pn ∧ ch.text ∈ texts ∧ ch.char_count = ch.text.length := by
  induction texts with
  | nil => intro idx pn ch h; cases h
  | cons t ts ih =>
      intro idx pn ch h
      rcases List.mem_cons.1 h with h | h
      · rw [h]
        exact ⟨rfl, List.mem_cons_self t ts, rfl⟩
      · obtain ⟨h1, h2, h3⟩ := ih (idx + 1) pn ch h
        exact ⟨h1, List.mem_cons_of_mem t h2, h3⟩

theorem chunkTextAux_map_idx (cs co : Nat) :
    ∀ (pages : List (List Char × Nat)) (idx : Nat) (l : List DocumentChunk),
      chunkTextAux cs co pages idx = some l →
      l.map DocumentChunk.chunk_index = List.range' idx l.length := by
  intro pages
  induction pages with
  | nil =>
      intro idx l h
      cases h
      rfl
  | cons page rest ih =>
      obtain ⟨t, pn⟩ := page
      intro idx l h
      rw [chunkTextAux] at h
      split at h
      · cases hr : chunkTextAux cs co rest (idx + 1) with
        | none => rw [hr] at h; simp at h
        | some l' =>
            rw [hr, Option.map_some'] at h
            cases h
            rw [List.map_cons, ih (idx + 1) l' hr]
            show idx :: _ = List.range' idx (l'.length + 1)
            rw [List.range'_succ]
      · cases hsp : split_text_with_overlap cs co t with
        | none => rw [hsp, Option.none_bind] at h; cases h
        | some texts =>
            rw [hsp, Option.some_bind] at h
            cases hr : chunkTextAux cs co rest (idx + texts.length) with
            | none => rw [hr] at h; simp at h
            | some l' =>
                rw [hr, Option.map_some'] at h
                cases h
                rw [List.map_append, emitChunks_map_idx, ih _ l' hr,
                  List.length_append, emitChunks_length, List.range'_append_1,
                  Nat.add_comm l'.length texts.length]

theorem chunkTextAux_mem (cs co : Nat) :
    ∀ (pages : List (List Char × Nat)) (idx : Nat) (l : List DocumentChunk),
      chunkTextAux cs co pages idx = some l →
      ∀ ch ∈ l,
        ch.char_count = ch.text.length ∧ ch.char_count ≤ cs ∧
        ∃ t pre suf, (t, ch.page_number) ∈ pages ∧ t = pre ++ ch.text ++ suf := by
  intro pages
  induction pages with
  | nil =>
      intro idx l h
      cases h
      intro ch hch
      cases hch
  | cons page rest ih =>
      obtain ⟨t, pn⟩ := page
      intro idx l h
      rw [chunkTextAux] at h
      split at h
      case isTrue hle =>
        cases hr : chunkTextAux cs co rest (idx + 1) with
        | none => rw [hr] at h; simp at h
        | some l' =>
            rw [hr, Option.map_some'] at h
            cases h
            intro ch hch
            rcases List.mem_cons.1 hch with hch | hch
            · rw [hch]
              refine ⟨rfl, hle, t, [], [], ?_, ?_⟩
              · exact List.mem_cons_self (t, pn) rest
              · simp [chunkFromText]
            · obtain ⟨h1, h2, t', pre, suf, h3, h4⟩ := ih (idx + 1) l' hr ch hch
              exact ⟨h1, h2, t', pre, suf, List.mem_cons_of_mem (t, pn) h3, h4⟩
      case isFalse hgt =>
        cases hsp : split_text_with_overlap cs co t with
        | none => rw [hsp, Option.none_bind] at h; cases h
        | some texts =>
            rw [hsp, Option.some_bind] at h
            cases hr : chunkTextAux cs co rest (idx + texts.length) with
            | none => rw [hr] at h; simp at h
            | some l' =>
                rw [hr, Option.map_some'] at h
                cases h
                intro ch hch
                rcases List.mem_append.1 hch with hch | hch
                · obtain ⟨hpg, htx, hcc⟩ := emitChunks_mem texts idx pn ch hch
                  have hsound := split_sound cs co t
                    (fun c => (∃ pre suf, t = pre ++ c ++ suf) ∧ c.length ≤ cs)
                    (fun s => ⟨chunk_sub t s _, chunk_length_le cs t s⟩)
                    texts hsp ch.text htx
                  obtain ⟨⟨pre, suf, hdec⟩, hlen⟩ := hsound
                  refine ⟨hcc, by omega, t, pre, suf, ?_, hdec⟩
                  rw [hpg]
                  exact List.mem_cons_self (t, pn) rest
                · obtain ⟨h1, h2, t', pre, suf, h3, h4⟩ := ih _ l' hr ch hch
                  exact ⟨h1, h2, t', pre, suf, List.mem_cons_of_mem (t, pn) h3, h4⟩

theorem pairwise_le_replicate (n pn : Nat) :
    List.Pairwise (· ≤ ·) (List.replicate n pn) := by
  induction n with
  | zero => simp
  | succ m ih =>
      rw [List.replicate_succ, List.pairwise_cons]
      exact ⟨fun b hb => by rw [List.eq_of_mem_replicate hb], ih⟩

theorem chunkTextAux_pairwise (cs co : Nat) :
    ∀ (pages : List (List Char × Nat)) (idx : Nat) (l : List DocumentChunk),
      chunkTextAux cs co pages idx = some l →
      List.Pairwise (· ≤ ·) (pages.map Prod.snd) →
      List.Pairwise (· ≤ ·) (l.map DocumentChunk.page_number) := by
  intro pages
  induction pages with
  | nil =>
      intro idx l h _
      cases h
      simp
  | cons page rest ih =>
      obtain ⟨t, pn⟩ := page
      intro idx l h hp
      rw [List.map_cons, List.pairwise_cons] at hp
      obtain ⟨hp1, hp2⟩ := hp
      have hrest : ∀ (idx' : Nat) (l' : List DocumentChunk),
          chunkTextAux cs co rest idx' = some l' →
          ∀ b ∈ l'.map DocumentChunk.page_number, pn ≤ b := by
        intro idx' l' hr b hb
        rw [List.mem_map] at hb
        obtain ⟨ch, hch, hcheq⟩ := hb
        obtain ⟨_, _, t', _, _, h3, _⟩ := chunkTextAux_mem cs co rest idx' l' hr ch hch
        exact hp1 _ (by rw [← hcheq]; exact List.mem_map_of_mem Prod.snd h3)
      rw [chunkTextAux] at h
      split at h
      · cases hr : chunkTextAux cs co rest (idx + 1) with
        | none => rw [hr] at h; simp at h
        | some l' =>
            rw [hr, Option.map_some'] at h
            cases h
            rw [List.map_cons, List.pairwise_cons]
            exact ⟨fun b hb => hrest _ _ hr b hb, ih (idx + 1) l' hr hp2⟩
      · cases hsp : split_text_with_overlap cs co t with
        | none => rw [hsp, Option.none_bind] at h; cases h
        | some texts =>
            rw [hsp, Option.some_bind] at h
            cases hr : chunkTextAux cs co rest (idx + texts.length) with
            | none => rw [hr] at h; simp at h
            | some l' =>
                rw [hr, Option.map_some'] at h
                cases h
                rw [List.map_append, emitChunks_map_page, List.pairwise_append]
                refine ⟨pairwise_le_replicate _ _, ih _ l' hr hp2, ?_⟩
                intro a ha b hb
                rw [List.eq_of_mem_replicate ha]
                exact hrest _ _ hr b hb

/-! ## Structure of `extractAux` -/

theorem extractAux_mem :
    ∀ (raws : List (List Char)) (k : Nat) (t : List Char) (n : Nat),
      (t, n) ∈ extractAux raws k →
      k ≤ n ∧ ∃ raw, raws.get? (n - k) = some raw ∧ t = clean_text raw ∧
        (pyStrip t).isEmpty = false := by
  intro raws
  induction raws with
  | nil => intro k t n h; cases h
  | cons r rest ih =>
      intro k t n h
      rw [extractAux] at h
      split at h
      case isTrue hemp =>
        obtain ⟨hk, raw, hget, hteq, hne⟩ := ih (k + 1) t n h
        refine ⟨by omega, raw, ?_, hteq, hne⟩
        rw [show n - k = (n - (k + 1)) + 1 by omega, List.get?_cons_succ]
        exact hget
      case isFalse hemp =>
        rcases List.mem_cons.1 h with h | h
        · injection h with h1 h2
          subst h1
          subst h2
          refine ⟨Nat.le_refl _, r, ?_, rfl, ?_⟩
          · rw [Nat.sub_self]
            rfl
          · simp only [Bool.not_eq_true] at hemp
            exact hemp
        · obtain ⟨hk, raw, hget, hteq, hne⟩ := ih (k + 1) t n h
          refine ⟨by omega, raw, ?_, hteq, hne⟩
          rw [show n - k = (n - (k + 1)) + 1 by omega, List.get?_cons_succ]
          exact hget

theorem extractAux_not_mem (raws : List (List Char)) (k i : Nat) (raw : List Char)
    (hget : raws.get? i = some raw)
    (hemp : (pyStrip (clean_text raw)).isEmpty = true) :
    ∀ t, (t, k + i) ∉ extractAux raws k := by
  intro t hmem
  obtain ⟨hk, raw', hget', hteq, hne⟩ := extractAux_mem raws k t (k + i) hmem
  rw [show k + i - k = i by omega, hget] at hget'
  cases hget'
  rw [hteq] at hne
  rw [hemp] at hne
  simp at hne

/-! ## Claim theorems -/

/-- C1 (code bug in the source): the claim asserts that for every
configuration with `0 <= chunk_overlap < chunk_size` the splitting loop
terminates.  It does not: with `chunk_size = 300`, `chunk_overlap = 200`
(a valid configuration) and the 400-character page `advText` whose only
period sits at index 250, the loop reaches cursor 51 and then recomputes
`end = 251`, `start = 251 - 200 = 51` forever — the code's only progress
guard is `start <= 0`, which never fires at 51.  No amount of fuel makes
the loop finish, from cursor 51, from cursor 0, or from the top-level
entry point. -/
theorem claim_C1_nonterminating :
    (0 ≤ 200 ∧ 200 < 300) ∧ advText.length = 400 ∧
    (∀ (fuel : Nat) (acc : List (List Char)),
      splitLoop 300 200 advText fuel 51 acc = none) ∧
    (∀ (fuel : Nat) (acc : List (List Char)),
      splitLoop 300 200 advText fuel 0 acc = none) ∧
    split_text_with_overlap 300 200 advText = none :=
  ⟨⟨Nat.zero_le _, by norm_num⟩, advText_length, advLoop51, advLoop0, advSplit_none⟩

/-- C2 counterexample: on a 2500-character page with no periods,
`chunk_size = 1000`, `chunk_overlap = 200`, the splitter emits FOUR chunks,
not the three the claim states: the code never clamps `end` to
`len(text)`, so after the chunk `[1600, 2600)` the cursor advances to
`2600 - 200 = 2400 < 2500` and a fourth residual chunk of the last 100
characters is emitted. -/
theorem claim_C2_counterexample :
    (split_text_with_overlap 1000 200 t2500).map List.length ≠ some 3 ∧
    (split_text_with_overlap 1000 200 t2500).map List.length = some 4 := by
  rw [split_t2500]
  constructor
  · simp
  · simp

/-- C2 amended: on a 2500-character page with no periods and the default
configuration the splitter emits exactly four chunks, of lengths 1000,
1000, 900 and 100, with window starts 0, 800, 1600 and 2400; the slice of
the window `[1600, 2600)` is clamped to the text length by indexing, but
the cursor still advances from the unclamped `end = 2600`, producing a
final chunk of the last 100 characters. -/
theorem claim_C2_amended :
    split_text_with_overlap 1000 200 t2500 =
      some [allA 1000, allA 1000, allA 900, allA 100] ∧
    (chunkEnd 1000 t2500 0 = 1000 ∧ nextStart 200 1000 = 800) ∧
    (chunkEnd 1000 t2500 800 = 1800 ∧ nextStart 200 1800 = 1600) ∧
    (chunkEnd 1000 t2500 1600 = 2600 ∧ nextStart 200 2600 = 2400) ∧
    (chunkEnd 1000 t2500 2400 = 3400 ∧ nextStart 200 3400 = 3200) :=
  ⟨split_t2500,
    ⟨by rw [chunkEnd_no_dot 1000 t2500 0 no_dot_t2500], by norm_num [nextStart]⟩,
    ⟨by rw [chunkEnd_no_dot 1000 t2500 800 no_dot_t2500], by norm_num [nextStart]⟩,
    ⟨by rw [chunkEnd_no_dot 1000 t2500 1600 no_dot_t2500], by norm_num [nextStart]⟩,
    ⟨by rw [chunkEnd_no_dot 1000 t2500 2400 no_dot_t2500], by norm_num [nextStart]⟩⟩

/-- C3 counterexample: on `spText` (2500 characters, no period, a single
space at index 999) with the default configuration, the first chunk is a
hard cut (no period in the lookback window `[800, 1000)`), its window does
not reach the end of the page, it is not the final chunk of the page — yet
its `char_count` is 999, not `chunk_size = 1000`, because `strip()` removes
the trailing space of the window. -/
theorem claim_C3_counterexample :
    (split_text_with_overlap 1000 200 spText).map (List.map List.length) =
      some [999, 1000, 900, 100] ∧
    rfindDot spText 800 1000 = none ∧
    spText.length = 2500 ∧ (999 : Nat) ≠ 1000 := by
  refine ⟨?_, rfindDot_no_dot spText 800 1000 no_dot_spText, spText_length,
    by norm_num⟩
  rw [split_spText]
  simp [allA]

/-- C3 amended: every chunk emitted by `chunk_text` has
`char_count <= chunk_size` (sentence-snap only moves the boundary
backward), and every hard-cut window has width exactly `chunk_size`, so a
hard-cut chunk has `char_count` exactly `chunk_size` only when its slice
carries no leading or trailing whitespace (stripping may shorten it even
for non-final chunks). -/
theorem claim_C3_amended :
    (∀ (cs co : Nat) (pages : List (List Char × Nat)) (l : List DocumentChunk),
      chunk_text cs co pages = some l → ∀ ch ∈ l, ch.char_count ≤ cs) ∧
    (∀ (cs : Nat) (t : List Char) (s : Nat),
      s + cs < t.length →
      rfindDot t (max (s + cs - 200) s) (s + cs) = none →
      chunkEnd cs t s = s + cs ∧ (pySlice t s (s + cs)).length = cs ∧
      (pyStrip (pySlice t s (s + cs)) = pySlice t s (s + cs) →
        (pyStrip (pySlice t s (s + cs))).length = cs)) := by
  constructor
  · intro cs co pages l h ch hch
    obtain ⟨_, h2, _⟩ := chunkTextAux_mem cs co pages 0 l h ch hch
    exact h2
  · intro cs t s hlt hnone
    have he : chunkEnd cs t s = s + cs := by
      unfold chunkEnd
      rw [if_pos hlt, hnone]
    have hlen : (pySlice t s (s + cs)).length = cs := by
      unfold pySlice
      rw [List.length_take, List.length_drop]
      omega
    exact ⟨he, hlen, fun hstr => by rw [hstr, hlen]⟩

/-- Witness for C3: the bound at a concrete small input, and a concrete
hard-cut window of width exactly `chunk_size`. -/
theorem claim_C3_witness :
    (∀ ch ∈ [DocumentChunk.mk ['h', 'i'] 0 7 2], ch.char_count ≤ 1000) ∧
    chunkEnd 5 (allA 12) 0 = 0 + 5 :=
  ⟨claim_C3_amended.1 1000 200 [(['h', 'i'], 7)]
      [DocumentChunk.mk ['h', 'i'] 0 7 2] (by decide),
    (claim_C3_amended.2 5 (allA 12) 0 (by decide) (by decide)).1⟩

/-- C4: the `chunk_index` values of the sequence returned by `chunk_text`
are exactly `0, 1, ..., N-1` in emission order — no gaps, no repeats, the
counter running across page boundaries and consumed only when a chunk is
emitted. -/
theorem claim_C4_indices :
    ∀ (cs co : Nat) (pages : List (List Char × Nat)) (l : List DocumentChunk),
      chunk_text cs co pages = some l →
      l.map DocumentChunk.chunk_index = List.range l.length := by
  intro cs co pages l h
  rw [List.range_eq_range']
  exact chunkTextAux_map_idx cs co pages 0 l h

/-- Witness for C4: a two-page document yielding indices `[0, 1]`. -/
theorem claim_C4_witness :
    [DocumentChunk.mk ['a'] 0 1 1, DocumentChunk.mk ['b'] 1 2 1].map
      DocumentChunk.chunk_index = List.range 2 :=
  claim_C4_indices 1000 200 [(['a'], 1), (['b'], 2)]
    [DocumentChunk.mk ['a'] 0 1 1, DocumentChunk.mk ['b'] 1 2 1] (by decide)

/-- C5: in an iteration with tentative `end = start + chunk_size` strictly
inside the text, the chunker searches for the last period in
`[max(end - 200, start), end)`; a hit at `p > start` snaps `end = p + 1`,
any other outcome keeps `end = start + chunk_size`.  On the 1200-character
page with its only period at index 850 the first window ends at 851 and
the next start is 651. -/
theorem claim_C5_sentence_snap :
    (∀ (cs : Nat) (t : List Char) (s p : Nat),
      s + cs < t.length →
      rfindDot t (max (s + cs - 200) s) (s + cs) = some p →
      s < p → chunkEnd cs t s = p + 1) ∧
    (∀ (cs : Nat) (t : List Char) (s p : Nat),
      s + cs < t.length →
      rfindDot t (max (s + cs - 200) s) (s + cs) = some p →
      ¬ s < p → chunkEnd cs t s = s + cs) ∧
    (∀ (cs : Nat) (t : List Char) (s : Nat),
      s + cs < t.length →
      rfindDot t (max (s + cs - 200) s) (s + cs) = none →
      chunkEnd cs t s = s + cs) ∧
    rfindDot text1200 800 1000 = some 850 ∧
    chunkEnd 1000 text1200 0 = 851 ∧
    nextStart 200 851 = 651 ∧
    split_text_with_overlap 1000 200 text1200 =
      some [allA 850 ++ ['.'], allA 199 ++ (['.'] ++ allA 349)] := by
  refine ⟨?_, ?_, ?_, ?_, text1200_chunkEnd0, by norm_num [nextStart],
    split_text1200⟩
  · intro cs t s p hlt hf hsp
    unfold chunkEnd
    rw [if_pos hlt, hf]
    show (if s < p then p + 1 else s + cs) = p + 1
    rw [if_pos hsp]
  · intro cs t s p hlt hf hsp
    unfold chunkEnd
    rw [if_pos hlt, hf]
    show (if s < p then p + 1 else s + cs) = s + cs
    rw [if_neg hsp]
  · intro cs t s hlt hf
    unfold chunkEnd
    rw [if_pos hlt, hf]
  · rw [rfindDot_text1200]
    norm_num

/-- Witness for C5: the snap case applied at the concrete page. -/
theorem claim_C5_witness : chunkEnd 1000 text1200 0 = 850 + 1 :=
  claim_C5_sentence_snap.1 1000 text1200 0 850
    (by rw [text1200_length]; norm_num)
    (by rw [rfindDot_text1200]; norm_num)
    (by norm_num)

/-- C6 counterexample: invoked on a document whose status is already
`processing`, the call returns `False` and leaves the status at
`processing` — no transition to `completed` or `failed` happens, contrary
to the claim's unconditional "never left at processing". -/
theorem claim_C6_counterexample :
    (process_uploaded_document ⟨DocStatus.processing, []⟩
        (Except.ok [DocumentChunk.mk ['a'] 0 1 1])).1.status =
      DocStatus.processing ∧
    (process_uploaded_document ⟨DocStatus.processing, []⟩
        (Except.ok [DocumentChunk.mk ['a'] 0 1 1])).2 = false := by
  exact ⟨rfl, rfl⟩

/-- C6 amended: when the call starts on a document whose status is
`uploaded`, the status on return is `completed` or `failed` (never
`processing`); on failure the chunk rows are unchanged (pending inserts
rolled back) and the call returns `False`; on success the produced
non-empty chunk list is persisted and the call returns `True`. -/
theorem claim_C6_amended :
    ∀ (db : DocDB) (outcome : Except Unit (List DocumentChunk)),
      db.status = DocStatus.uploaded →
      ((process_uploaded_document db outcome).1.status = DocStatus.completed ∨
        (process_uploaded_document db outcome).1.status = DocStatus.failed) ∧
      ((process_uploaded_document db outcome).1.status = DocStatus.failed →
        (process_uploaded_document db outcome).1.chunks = db.chunks ∧
        (process_uploaded_document db outcome).2 = false) ∧
      ((process_uploaded_document db outcome).1.status = DocStatus.completed →
        ∃ chunks, outcome = Except.ok chunks ∧ chunks ≠ [] ∧
          (process_uploaded_document db outcome).1.chunks = db.chunks ++ chunks ∧
          (process_uploaded_document db outcome).2 = true) := by
  intro db outcome hst
  obtain ⟨st, chs⟩ := db
  simp only [DocDB.status] at hst
  subst hst
  unfold process_uploaded_document
  rw [if_neg (by simp)]
  cases outcome with
  | error e =>
      exact ⟨Or.inr rfl, fun _ => ⟨rfl, rfl⟩, fun hc => DocStatus.noConfusion hc⟩
  | ok chunks =>
      cases chunks with
      | nil =>
          exact ⟨Or.inr rfl, fun _ => ⟨rfl, rfl⟩, fun hc => DocStatus.noConfusion hc⟩
      | cons c cl =>
          exact ⟨Or.inl rfl, fun hf => DocStatus.noConfusion hf,
            fun _ => ⟨c :: cl, rfl, by simp, rfl, rfl⟩⟩

/-- Witness for C6: a concrete `uploaded` document whose processing fails
ends in `completed` or `failed`. -/
theorem claim_C6_witness :
    (process_uploaded_document ⟨DocStatus.uploaded, []⟩
        (Except.error ())).1.status = DocStatus.completed ∨
    (process_uploaded_document ⟨DocStatus.uploaded, []⟩
        (Except.error ())).1.status = DocStatus.failed :=
  (claim_C6_amended ⟨DocStatus.uploaded, []⟩ (Except.error ()) rfl).1

/-- C7: a page whose extracted text is empty after normalization is
omitted entirely by the extractor, and surviving pages keep their original
1-indexed PDF page number: every pair emitted for page `n` comes from the
`n`-th raw page and is non-empty, a page whose cleaned text strips to
empty contributes no pair, and for the concrete two-page document whose
first page is whitespace-only the single emitted chunk carries
`page_number = 2`. -/
theorem claim_C7_page_numbers :
    (∀ (raws : List (List Char)) (t : List Char) (n : Nat),
      (t, n) ∈ extract_text_from_pdf raws →
      1 ≤ n ∧ ∃ raw, raws.get? (n - 1) = some raw ∧ t = clean_text raw ∧
        (pyStrip t).isEmpty = false) ∧
    (∀ (raws : List (List Char)) (i : Nat) (raw : List Char),
      raws.get? i = some raw →
      (pyStrip (clean_text raw)).isEmpty = true →
      ∀ t, (t, 1 + i) ∉ extract_text_from_pdf raws) ∧
    extract_text_from_pdf [[' ', '\t'], ['h', 'e', 'l', 'l', 'o', '.']] =
      [(['h', 'e', 'l', 'l', 'o', '.'], 2)] ∧
    chunk_text 1000 200
        (extract_text_from_pdf [[' ', '\t'], ['h', 'e', 'l', 'l', 'o', '.']]) =
      some [DocumentChunk.mk ['h', 'e', 'l', 'l', 'o', '.'] 0 2 6] := by
  refine ⟨?_, ?_, by decide, by decide⟩
  · intro raws t n h
    exact extractAux_mem raws 1 t n h
  · intro raws i raw hget hemp
    exact extractAux_not_mem raws 1 i raw hget hemp

/-- Witness for C7: the whitespace-only first page of a concrete document
contributes no pair with page number 1. -/
theorem claim_C7_witness :
    (['h'], (1 : Nat)) ∉ extract_text_from_pdf [[' '], ['h']] :=
  claim_C7_page_numbers.2.1 [[' '], ['h']] 0 [' '] (by decide) (by decide) ['h']

/-- C8 (code bug in the source): the claim asserts `chunk_text` is total
for every well-formed input with valid configuration.  The empty-input
clause does hold (`chunk_text` of no pages is the empty chunk list), but
with the valid configuration `chunk_size = 300`, `chunk_overlap = 200` and
the single page `advText` the underlying splitting loop never terminates
(no fuel suffices), so the call never returns. -/
theorem claim_C8_totality :
    (∀ (cs co : Nat), chunk_text cs co [] = some []) ∧
    (0 ≤ 200 ∧ 200 < 300) ∧
    chunk_text 300 200 [(advText, 1)] = none ∧
    (∀ (fuel : Nat) (acc : List (List Char)),
      splitLoop 300 200 advText fuel 0 acc = none) :=
  ⟨fun _ _ => rfl, ⟨Nat.zero_le _, by norm_num⟩, advChunkText_none, advLoop0⟩

/-- C9: when the input pages are ordered by ascending page number, the
`page_number` sequence of the chunks is non-decreasing in emission order,
and every chunk's text is a contiguous substring of the single page it
carries the number of (no chunk spans two pages). -/
theorem claim_C9_page_monotone :
    ∀ (cs co : Nat) (pages : List (List Char × Nat)) (l : List DocumentChunk),
      chunk_text cs co pages = some l →
      List.Pairwise (· ≤ ·) (pages.map Prod.snd) →
      List.Pairwise (· ≤ ·) (l.map DocumentChunk.page_number) ∧
      ∀ ch ∈ l, ∃ t pre suf, (t, ch.page_number) ∈ pages ∧
        t = pre ++ ch.text ++ suf := by
  intro cs co pages l h hs
  refine ⟨chunkTextAux_pairwise cs co pages 0 l h hs, ?_⟩
  intro ch hch
  obtain ⟨_, _, t, pre, suf, h3, h4⟩ := chunkTextAux_mem cs co pages 0 l h ch hch
  exact ⟨t, pre, suf, h3, h4⟩

/-- Witness for C9: a concrete two-page document with ascending page
numbers yields a non-decreasing chunk `page_number` sequence. -/
theorem claim_C9_witness :
    List.Pairwise (· ≤ ·) ([DocumentChunk.mk ['a'] 0 1 1,
      DocumentChunk.mk ['b'] 1 2 1].map DocumentChunk.page_number) :=
  (claim_C9_page_monotone 1000 200 [(['a'], 1), (['b'], 2)]
    [DocumentChunk.mk ['a'] 0 1 1, DocumentChunk.mk ['b'] 1 2 1]
    (by decide) (by decide)).1

/-- C10: a page whose text is no longer than `chunk_size` becomes exactly
one chunk, verbatim and untrimmed — no emptiness check is applied on this
path, so a whitespace-only or even empty page text is emitted as-is and
consumes a chunk index (the following page continues at `idx + 1`). -/
theorem claim_C10_small_page :
    (∀ (cs co : Nat) (t : List Char) (pn : Nat),
      t.length ≤ cs →
      chunk_text cs co [(t, pn)] = some [DocumentChunk.mk t 0 pn t.length]) ∧
    (∀ (cs co : Nat) (t : List Char) (pn : Nat)
        (rest : List (List Char × Nat)) (idx : Nat),
      t.length ≤ cs →
      chunkTextAux cs co ((t, pn) :: rest) idx =
        (chunkTextAux cs co rest (idx + 1)).map
          (fun l => DocumentChunk.mk t idx pn t.length :: l)) ∧
    chunk_text 1000 200 [([' '], 3)] = some [DocumentChunk.mk [' '] 0 3 1] ∧
    chunk_text 1000 200 [([], 5)] = some [DocumentChunk.mk [] 0 5 0] := by
  have hgen : ∀ (cs co : Nat) (t : List Char) (pn : Nat)
      (rest : List (List Char × Nat)) (idx : Nat),
      t.length ≤ cs →
      chunkTextAux cs co ((t, pn) :: rest) idx =
        (chunkTextAux cs co rest (idx + 1)).map
          (fun l => DocumentChunk.mk t idx pn t.length :: l) := by
    intro cs co t pn rest idx h
    rw [chunkTextAux, if_pos h]
    rfl
  refine ⟨?_, hgen, by decide, by decide⟩
  intro cs co t pn h
  show chunkTextAux cs co [(t, pn)] 0 = _
  rw [hgen cs co t pn [] 0 h]
  rfl

/-- Witness for C10: a concrete whitespace-only page of length 2 becomes
one verbatim chunk. -/
theorem claim_C10_witness :
    chunk_text 500 100 [([' ', ' '], 7)] =
      some [DocumentChunk.mk [' ', ' '] 0 7 2] :=
  claim_C10_small_page.1 500 100 [' ', ' '] 7 (by decide)
